import Mathlib

/-!
# Verification of the `cases` library (`src/mod.ts`)

A shallow embedding of the string case-conversion library. Strings are
modelled as `List Char` (one entry per code point), with `String`-level
wrappers mirroring the public API. The segmentation regex

  `/[^\p{Lu}_\-\s]+|\p{Lu}+(?![^\p{Lu}_\-\s])|\p{Lu}[^\p{Lu}_\-\s]*/gu`

is embedded as an explicit left-to-right scanner (`splitPiecesAux`) with
exactly the `matchAll` semantics: at each position the three alternatives
are tried in order, each greedy, with the lookahead of the second
alternative resolved by backtracking; a position where no alternative
matches is skipped.

Character classes: `\p{Lu}` (Unicode uppercase letter) and the
`toUpperCase`/`toLowerCase` mappings are modelled over the ASCII fragment,
in which all of the spec's examples and the claims' inputs live (the spec
itself puts "locale-aware Unicode casing beyond simple upper/lower
mapping" out of scope).  JavaScript's `\s` class is modelled in full.
-/

namespace Cases

/-- Models the regex class `\p{Lu}` (uppercase letter) restricted to the
ASCII fragment. -/
def isLu (c : Char) : Bool := 'A' ≤ c && c ≤ 'Z'

/-- Models JavaScript's `\s` class: the full set of characters matched by
`\s` in ECMAScript (WhiteSpace ∪ LineTerminator). -/
def isJsSpace (c : Char) : Bool :=
  c = ' ' || c = '\t' || c = '\n' || c = '\x0b' || c = '\x0c' || c = '\r' ||
  c = '\u00a0' || c = '\u1680' || ('\u2000' ≤ c && c ≤ '\u200a') ||
  c = '\u2028' || c = '\u2029' || c = '\u202f' || c = '\u205f' ||
  c = '\u3000' || c = '\ufeff'

/-- The character set `[_\-\s]` excluded from every piece by the regex of
`splitPieces`: underscore, dash, and JavaScript whitespace. -/
def isDelim (c : Char) : Bool := isJsSpace c || c = '-' || c = '_'

/-- The regex class `[^\p{Lu}_\-\s]`: a character that is neither an
uppercase letter nor a delimiter ("plain", a lowercase-continuation
character). -/
def isPlain (c : Char) : Bool := !isLu c && !isDelim c

/-- Splits the non-empty list `c :: l` into its leading part and its last
element. Helper for the backtracking of the acronym alternative. -/
def splitLast (c : Char) : List Char → List Char × Char
  | [] => ([], c)
  | d :: ds =>
    let (front, lst) := splitLast d ds
    (c :: front, lst)

/-- The scanner underlying `splitPieces`, over `List Char`.  Mirrors
`str.matchAll(regexp)` for the regex above: at each position, in order,
(1) a maximal run of plain characters; (2) a maximal run of uppercase
letters not followed by a plain character — when the character after the
run is plain, backtracking shortens the run by one, which succeeds only
if at least one uppercase letter remains; (3) one uppercase letter
followed by a maximal run of plain characters; otherwise the position is
skipped (delimiter). -/
def splitPiecesAux (l : List Char) : List (List Char) :=
  match l with
  | [] => []
  | c :: cs =>
    if isPlain c then
      (c :: cs.takeWhile isPlain) :: splitPiecesAux (cs.dropWhile isPlain)
    else if isLu c then
      match h : cs.dropWhile isLu with
      | [] => [c :: cs.takeWhile isLu]
      | d :: ds =>
        if isPlain d then
          match cs.takeWhile isLu with
          | [] =>
            (c :: d :: ds.takeWhile isPlain) ::
              splitPiecesAux (ds.dropWhile isPlain)
          | lu :: lus =>
            let (front, lst) := splitLast lu lus
            (c :: front) :: (lst :: d :: ds.takeWhile isPlain) ::
              splitPiecesAux (ds.dropWhile isPlain)
        else
          (c :: cs.takeWhile isLu) :: splitPiecesAux (d :: ds)
    else
      splitPiecesAux cs
termination_by l.length
decreasing_by
  all_goals simp_wf
  all_goals try exact Nat.lt_succ_of_le (List.dropWhile_suffix _).length_le
  all_goals
    rename_i c0 cs0 hp0 hl0 hpd
    have h1 : (d :: ds).length <= cs0.length := by
      rw [<- h]; exact (List.dropWhile_suffix isLu).length_le
    have h2 : (ds.dropWhile isPlain).length <= ds.length :=
      (List.dropWhile_suffix isPlain).length_le
    simp only [List.length_cons] at h1
    omega

/-- `splitPieces` of `src/mod.ts`: split a string into pieces based on
spaces, dashes, underscores, and camel case. -/
def splitPieces (s : String) : List String :=
  (splitPiecesAux s.data).map fun p => ⟨p⟩

/-! ### A fuel-indexed twin of the scanner

`splitPiecesAux` uses well-founded recursion, which the kernel cannot
unfold on concrete inputs; `splitPiecesGo` is the same scan made
structural in a fuel counter (one unit of fuel per consumed character),
so that concrete runs evaluate by `decide`/`rfl`. `splitPiecesGo_eq`
proves the two agree whenever the fuel covers the input length. -/

def splitPiecesGo : Nat → List Char → List (List Char)
  | 0, _ => []
  | _ + 1, [] => []
  | fuel + 1, c :: cs =>
    if isPlain c then
      (c :: cs.takeWhile isPlain) :: splitPiecesGo fuel (cs.dropWhile isPlain)
    else if isLu c then
      match cs.dropWhile isLu with
      | [] => [c :: cs.takeWhile isLu]
      | d :: ds =>
        if isPlain d then
          match cs.takeWhile isLu with
          | [] =>
            (c :: d :: ds.takeWhile isPlain) ::
              splitPiecesGo fuel (ds.dropWhile isPlain)
          | lu :: lus =>
            let (front, lst) := splitLast lu lus
            (c :: front) :: (lst :: d :: ds.takeWhile isPlain) ::
              splitPiecesGo fuel (ds.dropWhile isPlain)
        else
          (c :: cs.takeWhile isLu) :: splitPiecesGo fuel (d :: ds)
    else
      splitPiecesGo fuel cs

/-- Computable form of `splitPieces` (kernel-evaluable on literals). -/
def splitPiecesC (s : String) : List String :=
  (splitPiecesGo s.data.length s.data).map fun p => ⟨p⟩

/-! ### Formatters

Each of the six formatters of `src/mod.ts` takes either a raw string or
an already-segmented array; both entry points are embedded.  JavaScript's
`String.prototype.toLowerCase`/`toUpperCase` are modelled per character
over the ASCII fragment, which is exactly core `Char.toLower`/`toUpper`. -/

/-- `s.toLowerCase()` on the ASCII fragment. -/
def lowerStr (s : List Char) : List Char := s.map Char.toLower

/-- `s.toUpperCase()` on the ASCII fragment. -/
def upperStr (s : List Char) : List Char := s.map Char.toUpper

/-- `s[0].toUpperCase() + s.slice(1).toLowerCase()`.  On the empty string
`s[0]` is `undefined` and calling `.toUpperCase()` on it throws, so the
expression is modelled as fallible. -/
def capitalize : List Char → Option (List Char)
  | [] => none
  | c :: cs => some (c.toUpper :: lowerStr cs)

/-- `pieces.join(sep)` (`Array.prototype.join`). -/
def joinSep (sep : List Char) : List (List Char) → List Char
  | [] => []
  | [p] => p
  | p :: q :: ps => p ++ sep ++ joinSep sep (q :: ps)

/-- The per-piece arrow function of `camelCase` (`(s, i) => ...`). -/
def camelPiece (i : Nat) (s : List Char) : Option (List Char) :=
  if i = 0 then some (lowerStr s)
  else if upperStr s = s then some s
  else capitalize s

/-- `pieces.map((s, i) => f(s, i))` with the element index made explicit,
`none` as soon as one piece throws. -/
def mapIdxPieces (f : Nat → List Char → Option (List Char)) :
    Nat → List (List Char) → Option (List (List Char))
  | _, [] => some []
  | i, s :: rest => do
    let t ← f i s
    let ts ← mapIdxPieces f (i + 1) rest
    pure (t :: ts)

/-- `camelCase` on an already-segmented piece sequence. -/
def camelCaseP (ps : List (List Char)) : Option (List Char) :=
  (mapIdxPieces camelPiece 0 ps).map (joinSep [])

/-- `pieces.map(f)` for an index-free fallible per-piece function,
`none` as soon as one piece throws. -/
def mapPieces (f : List Char → Option (List Char)) :
    List (List Char) → Option (List (List Char))
  | [] => some []
  | s :: rest => do
    let t ← f s
    let ts ← mapPieces f rest
    pure (t :: ts)

/-- The per-piece arrow function that `titleCase` and `pascalCase` both
repeat verbatim in the source. -/
def capPiece (s : List Char) : Option (List Char) :=
  if upperStr s = s then some s else capitalize s

/-- `titleCase` on an already-segmented piece sequence. -/
def titleCaseP (ps : List (List Char)) : Option (List Char) :=
  (mapPieces capPiece ps).map (joinSep [' '])

/-- `pascalCase` on an already-segmented piece sequence. -/
def pascalCaseP (ps : List (List Char)) : Option (List Char) :=
  (mapPieces capPiece ps).map (joinSep [])

/-- `snakeCase` on an already-segmented piece sequence. -/
def snakeCaseP (ps : List (List Char)) : List Char :=
  joinSep ['_'] (ps.map lowerStr)

/-- `kebabCase` on an already-segmented piece sequence. -/
def kebabCaseP (ps : List (List Char)) : List Char :=
  joinSep ['-'] (ps.map lowerStr)

/-- `constantCase` on an already-segmented piece sequence. -/
def constantCaseP (ps : List (List Char)) : List Char :=
  joinSep ['_'] (ps.map upperStr)

/-! String-typed entry points: the `string[]` overload of each formatter
(pieces used verbatim), and the `string` overload, which is dispatched by
`Array.isArray(str) ? str : splitPieces(str)` in every formatter. -/

def camelCasePieces (ps : List String) : Option String :=
  (camelCaseP (ps.map String.data)).map fun l => ⟨l⟩

def snakeCasePieces (ps : List String) : String :=
  ⟨snakeCaseP (ps.map String.data)⟩

def kebabCasePieces (ps : List String) : String :=
  ⟨kebabCaseP (ps.map String.data)⟩

def titleCasePieces (ps : List String) : Option String :=
  (titleCaseP (ps.map String.data)).map fun l => ⟨l⟩

def pascalCasePieces (ps : List String) : Option String :=
  (pascalCaseP (ps.map String.data)).map fun l => ⟨l⟩

def constantCasePieces (ps : List String) : String :=
  ⟨constantCaseP (ps.map String.data)⟩

def camelCase (s : String) : Option String := camelCasePieces (splitPieces s)

def snakeCase (s : String) : String := snakeCasePieces (splitPieces s)

def kebabCase (s : String) : String := kebabCasePieces (splitPieces s)

def titleCase (s : String) : Option String := titleCasePieces (splitPieces s)

def pascalCase (s : String) : Option String := pascalCasePieces (splitPieces s)

def constantCase (s : String) : String := constantCasePieces (splitPieces s)

/-! ### Spec-side definitions

Definitions that follow the wording of the specification (not the code),
used to compare the implementation against the spec's claims. -/

/-- The delimiter set as the spec's claim words it: exactly space, dash,
and underscore. -/
def isClaimDelim (c : Char) : Bool := c = ' ' || c = '-' || c = '_'

/-- The maximal runs of characters not satisfying `d`, with `d`-characters
consumed as separators and never producing a piece: the spec's description
of pure delimiter splitting. -/
def runsBy (d : Char → Bool) (l : List Char) : List (List Char) :=
  match l with
  | [] => []
  | c :: cs =>
    if d c then runsBy d cs
    else (c :: cs.takeWhile (fun x => !d x)) :: runsBy d (cs.dropWhile (fun x => !d x))
termination_by l.length
decreasing_by
  all_goals simp_wf
  all_goals exact Nat.lt_succ_of_le (List.dropWhile_suffix _).length_le

/-- "Capitalize first character + lowercase remainder" as the spec words
it, total on the non-empty pieces the claims quantify over. -/
def capSpec : List Char → List Char
  | [] => []
  | c :: cs => c.toUpper :: lowerStr cs

/-- The spec's per-piece rule shared by title/pascal (and camel's later
pieces): keep an all-uppercase piece unchanged, else capitalize. -/
def caseSpec (t : List Char) : List Char :=
  if upperStr t = t then t else capSpec t

/-- The camelCase rendering exactly as claim C4 words it: first piece
fully lowercased, later pieces per `caseSpec`, concatenated. -/
def camelSpec : List (List Char) → List Char
  | [] => []
  | s :: rest => lowerStr s ++ (rest.map caseSpec).flatten

/-- The titleCase rendering as claim C5 words it. -/
def titleSpec (ps : List (List Char)) : List Char :=
  joinSep [' '] (ps.map caseSpec)

/-- The pascalCase rendering as claim C5 words it. -/
def pascalSpec (ps : List (List Char)) : List Char :=
  (ps.map caseSpec).flatten

/-- Dropping a prefix never lengthens a list (proof helper). -/
theorem dropWhile_length_le (p : Char → Bool) (l : List Char) :
    (l.dropWhile p).length ≤ l.length :=
  (List.dropWhile_suffix p).length_le

/-! ### Step equations for the scanner

`splitPiecesAux` is defined by well-founded recursion, so its defining
equations are re-proved here as standalone rewriting lemmas, one per
branch of the scan. -/

theorem aux_nil : splitPiecesAux [] = [] := by
  rw [splitPiecesAux.eq_def]

theorem aux_plain (c : Char) (cs : List Char) (h : isPlain c = true) :
    splitPiecesAux (c :: cs)
      = (c :: cs.takeWhile isPlain) :: splitPiecesAux (cs.dropWhile isPlain) := by
  rw [splitPiecesAux.eq_def]
  simp [h]

theorem aux_delim (c : Char) (cs : List Char) (h1 : isPlain c = false)
    (h2 : isLu c = false) :
    splitPiecesAux (c :: cs) = splitPiecesAux cs := by
  rw [splitPiecesAux.eq_def]
  simp [h1, h2]

theorem aux_upper_end (c : Char) (cs : List Char) (h1 : isPlain c = false)
    (h2 : isLu c = true) (h3 : cs.dropWhile isLu = []) :
    splitPiecesAux (c :: cs) = [c :: cs.takeWhile isLu] := by
  rw [splitPiecesAux.eq_def]
  simp only [h1, h2, Bool.false_eq_true, if_false, if_true]
  split
  · rfl
  · rename_i d' ds' heq
    rw [h3] at heq
    cases heq

theorem aux_upper_single (c : Char) (cs : List Char) (d : Char) (ds : List Char)
    (h1 : isPlain c = false) (h2 : isLu c = true)
    (h3 : cs.dropWhile isLu = d :: ds) (h4 : isPlain d = true)
    (h5 : cs.takeWhile isLu = []) :
    splitPiecesAux (c :: cs)
      = (c :: d :: ds.takeWhile isPlain) :: splitPiecesAux (ds.dropWhile isPlain) := by
  rw [splitPiecesAux.eq_def]
  simp only [h1, h2, Bool.false_eq_true, if_false, if_true]
  split
  · rename_i heq
    rw [h3] at heq
    cases heq
  · rename_i d' ds' heq
    rw [h3] at heq
    injection heq with hd hds
    subst hd
    subst hds
    rw [if_pos h4, h5]

theorem aux_upper_acro (c : Char) (cs : List Char) (d : Char) (ds : List Char)
    (lu : Char) (lus : List Char)
    (h1 : isPlain c = false) (h2 : isLu c = true)
    (h3 : cs.dropWhile isLu = d :: ds) (h4 : isPlain d = true)
    (h5 : cs.takeWhile isLu = lu :: lus) :
    splitPiecesAux (c :: cs)
      = (c :: (splitLast lu lus).1) ::
          ((splitLast lu lus).2 :: d :: ds.takeWhile isPlain) ::
          splitPiecesAux (ds.dropWhile isPlain) := by
  rw [splitPiecesAux.eq_def]
  simp only [h1, h2, Bool.false_eq_true, if_false, if_true]
  split
  · rename_i heq
    rw [h3] at heq
    cases heq
  · rename_i d' ds' heq
    rw [h3] at heq
    injection heq with hd hds
    subst hd
    subst hds
    rw [if_pos h4, h5]

theorem aux_upper_delim (c : Char) (cs : List Char) (d : Char) (ds : List Char)
    (h1 : isPlain c = false) (h2 : isLu c = true)
    (h3 : cs.dropWhile isLu = d :: ds) (h4 : isPlain d = false) :
    splitPiecesAux (c :: cs)
      = (c :: cs.takeWhile isLu) :: splitPiecesAux (d :: ds) := by
  rw [splitPiecesAux.eq_def]
  simp only [h1, h2, Bool.false_eq_true, if_false, if_true]
  split
  · rename_i heq
    rw [h3] at heq
    cases heq
  · rename_i d' ds' heq
    rw [h3] at heq
    injection heq with hd hds
    subst hd
    subst hds
    rw [if_neg (by simp [h4])]

theorem splitPiecesGo_eq (fuel : Nat) (l : List Char) (h : l.length <= fuel) :
    splitPiecesGo fuel l = splitPiecesAux l := by
  induction fuel generalizing l with
  | zero =>
    have : l = [] := List.length_eq_zero.mp (Nat.le_zero.mp h)
    subst this
    rw [aux_nil, splitPiecesGo]
  | succ fuel ih =>
    match l with
    | [] => rw [aux_nil, splitPiecesGo]
    | c :: cs =>
      simp only [List.length_cons, Nat.succ_le_succ_iff] at h
      by_cases hp : isPlain c
      · rw [splitPiecesGo, if_pos hp, aux_plain c cs hp,
          ih _ (Nat.le_trans (dropWhile_length_le _ _) h)]
      · have hp' : isPlain c = false := by simpa using hp
        by_cases hu : isLu c
        · rcases h3 : cs.dropWhile isLu with _ | ⟨d, ds⟩
          · rw [splitPiecesGo, if_neg hp, if_pos hu, aux_upper_end c cs hp' hu h3]
            simp only [h3]
          · have hds : ds.length < cs.length := by
              have h1 := dropWhile_length_le isLu cs
              rw [h3] at h1
              simp only [List.length_cons] at h1
              omega
            by_cases hd : isPlain d
            · rcases h5 : cs.takeWhile isLu with _ | ⟨lu, lus⟩
              · rw [splitPiecesGo, if_neg hp, if_pos hu,
                  aux_upper_single c cs d ds hp' hu h3 hd h5]
                simp only [h3, h5, if_pos hd]
                rw [ih _ (Nat.le_trans (dropWhile_length_le _ _) (by omega))]
              · rw [splitPiecesGo, if_neg hp, if_pos hu,
                  aux_upper_acro c cs d ds lu lus hp' hu h3 hd h5]
                simp only [h3, h5, if_pos hd]
                rcases hsl : splitLast lu lus with ⟨front, lst⟩
                simp only [hsl]
                rw [ih _ (Nat.le_trans (dropWhile_length_le _ _) (by omega))]
            · have hd' : isPlain d = false := by simpa using hd
              rw [splitPiecesGo, if_neg hp, if_pos hu,
                aux_upper_delim c cs d ds hp' hu h3 hd']
              simp only [h3, hd', Bool.false_eq_true, if_false]
              rw [ih _ (by simp only [List.length_cons]; omega)]
        · have hu' : isLu c = false := by simpa using hu
          rw [splitPiecesGo, if_neg hp, if_neg hu, aux_delim c cs hp' hu', ih _ h]

theorem splitPieces_eq_splitPiecesC (s : String) : splitPieces s = splitPiecesC s := by
  rw [splitPieces, splitPiecesC, splitPiecesGo_eq _ _ (Nat.le_refl _)]

/-! ### Character facts

Bridging lemmas from `Char` comparisons to `Nat` arithmetic on code
points, characterizations of the scanner's character classes, and the
arithmetic of ASCII case mapping. -/

theorem char_eq_iff {c d : Char} : c = d ↔ c.toNat = d.toNat := by
  constructor
  · intro h; rw [h]
  · intro h
    exact Char.ext (UInt32.eq_of_toBitVec_eq (BitVec.eq_of_toNat_eq h))

theorem charLe_iff {a b : Char} : a ≤ b ↔ a.toNat ≤ b.toNat := by
  rw [Char.le_def, UInt32.le_def]
  rfl

theorem toNat_ofNat_valid (n : Nat) (h : n.isValidChar) : (Char.ofNat n).toNat = n := by
  rw [Char.ofNat, dif_pos h]
  simp [Char.ofNatAux, Char.toNat, UInt32.toNat, BitVec.toNat_ofNatLt]

theorem isLu_iff (c : Char) : isLu c = true ↔ 65 ≤ c.toNat ∧ c.toNat ≤ 90 := by
  simp [isLu, charLe_iff]

theorem isJsSpace_iff (c : Char) :
    isJsSpace c = true ↔
      (c.toNat = 32 ∨ c.toNat = 9 ∨ c.toNat = 10 ∨ c.toNat = 11 ∨ c.toNat = 12 ∨
       c.toNat = 13 ∨ c.toNat = 160 ∨ c.toNat = 5760 ∨
       (8192 ≤ c.toNat ∧ c.toNat ≤ 8202) ∨ c.toNat = 8232 ∨ c.toNat = 8233 ∨
       c.toNat = 8239 ∨ c.toNat = 8287 ∨ c.toNat = 12288 ∨ c.toNat = 65279) := by
  simp [isJsSpace, char_eq_iff, charLe_iff]
  tauto

theorem isDelim_iff (c : Char) :
    isDelim c = true ↔
      (c.toNat = 32 ∨ c.toNat = 9 ∨ c.toNat = 10 ∨ c.toNat = 11 ∨ c.toNat = 12 ∨
       c.toNat = 13 ∨ c.toNat = 160 ∨ c.toNat = 5760 ∨
       (8192 ≤ c.toNat ∧ c.toNat ≤ 8202) ∨ c.toNat = 8232 ∨ c.toNat = 8233 ∨
       c.toNat = 8239 ∨ c.toNat = 8287 ∨ c.toNat = 12288 ∨ c.toNat = 65279 ∨
       c.toNat = 45 ∨ c.toNat = 95) := by
  simp [isDelim, isJsSpace_iff, char_eq_iff]
  tauto

theorem isLu_not_delim (c : Char) (h : isLu c = true) : isDelim c = false := by
  rw [isLu_iff] at h
  by_contra hc
  have hd : isDelim c = true := by simpa using hc
  rw [isDelim_iff] at hd
  omega

theorem isPlain_not_delim (c : Char) (h : isPlain c = true) : isDelim c = false := by
  simp only [isPlain, Bool.and_eq_true, Bool.not_eq_true'] at h
  exact h.2

theorem isPlain_not_lu (c : Char) (h : isPlain c = true) : isLu c = false := by
  simp only [isPlain, Bool.and_eq_true, Bool.not_eq_true'] at h
  exact h.1

theorem classify (c : Char) (h : isDelim c = false) :
    isPlain c = true ∨ isLu c = true := by
  cases hu : isLu c
  · left
    simp [isPlain, hu, h]
  · right
    rfl

theorem isLower_iff (c : Char) : c.isLower = true ↔ 97 ≤ c.toNat ∧ c.toNat ≤ 122 := by
  simp only [Char.isLower, Bool.and_eq_true, decide_eq_true_eq, ge_iff_le]
  rw [UInt32.le_def, UInt32.le_def]
  constructor
  · intro ⟨h1, h2⟩
    exact ⟨h1, h2⟩
  · intro ⟨h1, h2⟩
    exact ⟨h1, h2⟩

theorem isDigit_iff (c : Char) : c.isDigit = true ↔ 48 ≤ c.toNat ∧ c.toNat ≤ 57 := by
  simp only [Char.isDigit, Bool.and_eq_true, decide_eq_true_eq, ge_iff_le]
  rw [UInt32.le_def, UInt32.le_def]
  constructor
  · intro ⟨h1, h2⟩
    exact ⟨h1, h2⟩
  · intro ⟨h1, h2⟩
    exact ⟨h1, h2⟩

theorem isUpper_iff (c : Char) : c.isUpper = true ↔ 65 ≤ c.toNat ∧ c.toNat ≤ 90 := by
  simp only [Char.isUpper, Bool.and_eq_true, decide_eq_true_eq, ge_iff_le]
  rw [UInt32.le_def, UInt32.le_def]
  constructor
  · intro ⟨h1, h2⟩
    exact ⟨h1, h2⟩
  · intro ⟨h1, h2⟩
    exact ⟨h1, h2⟩

theorem toLower_toNat (c : Char) (h1 : 65 ≤ c.toNat) (h2 : c.toNat ≤ 90) :
    (Char.toLower c).toNat = c.toNat + 32 := by
  rw [Char.toLower, if_pos ⟨h1, h2⟩]
  exact toNat_ofNat_valid _ (Or.inl (by omega))

theorem toLower_eq_self (c : Char) (h : ¬(65 ≤ c.toNat ∧ c.toNat ≤ 90)) :
    Char.toLower c = c := by
  rw [Char.toLower, if_neg h]

theorem toUpper_toNat (c : Char) (h1 : 97 ≤ c.toNat) (h2 : c.toNat ≤ 122) :
    (Char.toUpper c).toNat = c.toNat - 32 := by
  rw [Char.toUpper, if_pos ⟨h1, h2⟩]
  exact toNat_ofNat_valid _ (Or.inl (by omega))

theorem toUpper_eq_self (c : Char) (h : ¬(97 ≤ c.toNat ∧ c.toNat ≤ 122)) :
    Char.toUpper c = c := by
  rw [Char.toUpper, if_neg h]

theorem toUpper_toLower (c : Char) : c.toLower.toUpper = c.toUpper := by
  by_cases h : 65 ≤ c.toNat ∧ c.toNat ≤ 90
  · have hl := toLower_toNat c h.1 h.2
    apply char_eq_iff.mpr
    rw [toUpper_toNat _ (by omega) (by omega), hl,
      (toUpper_eq_self c (by omega) : c.toUpper = c)]
    omega
  · rw [toLower_eq_self c h]

theorem toUpper_toUpper (c : Char) : c.toUpper.toUpper = c.toUpper := by
  by_cases h : 97 ≤ c.toNat ∧ c.toNat ≤ 122
  · have hu := toUpper_toNat c h.1 h.2
    rw [toUpper_eq_self _ (by omega)]
  · rw [toUpper_eq_self c h, toUpper_eq_self c h]

theorem isLower_isPlain (c : Char) (h : c.isLower = true) : isPlain c = true := by
  rw [isLower_iff] at h
  have hu : isLu c = false := by
    by_contra hc
    have := (isLu_iff c).mp (by simpa using hc)
    omega
  have hd : isDelim c = false := by
    by_contra hc
    have := (isDelim_iff c).mp (by simpa using hc)
    omega
  simp [isPlain, hu, hd]

theorem isLower_toLower (c : Char) (h : c.isLower = true) : Char.toLower c = c := by
  rw [isLower_iff] at h
  exact toLower_eq_self c (by omega)

theorem isDigit_toUpper (c : Char) (h : c.isDigit = true) : Char.toUpper c = c := by
  rw [isDigit_iff] at h
  exact toUpper_eq_self c (by omega)

theorem toUpper_underscore (c : Char) (h : c.toNat ≠ 95) : (Char.toUpper c).toNat ≠ 95 := by
  by_cases hc : 97 ≤ c.toNat ∧ c.toNat ≤ 122
  · rw [toUpper_toNat c hc.1 hc.2]
    omega
  · rw [toUpper_eq_self c hc]
    exact h

/-! ### Scanner invariants -/

/-- `splitLast` splits a non-empty list into its leading part and last
element. -/
theorem splitLast_append (c : Char) (l : List Char) :
    (splitLast c l).1 ++ [(splitLast c l).2] = c :: l := by
  induction l generalizing c with
  | nil => rfl
  | cons d ds ih =>
    show c :: (splitLast d ds).1 ++ [(splitLast d ds).2] = c :: d :: ds
    rw [List.cons_append, ih d]

/-- Every piece produced by the scanner is non-empty and free of
delimiter characters. -/
theorem pieces_wf (l : List Char) :
    ∀ p ∈ splitPiecesAux l, p ≠ [] ∧ ∀ c ∈ p, isDelim c = false := by
  induction l using splitPiecesAux.induct with
  | case1 => simp [aux_nil]
  | case2 d ds hp ih =>
    rw [aux_plain d ds hp]
    intro p hmem
    rcases List.mem_cons.mp hmem with h | h
    · subst h
      refine ⟨by simp, ?_⟩
      intro c hc
      rcases List.mem_cons.mp hc with h | h
      · subst h; exact isPlain_not_delim _ hp
      · exact isPlain_not_delim _ (List.mem_takeWhile_imp h)
    · exact ih p h
  | case3 d ds hp hu h3 =>
    rw [aux_upper_end d ds (by simpa using hp) hu h3]
    intro p hmem
    rcases List.mem_cons.mp hmem with h | h
    · subst h
      refine ⟨by simp, ?_⟩
      intro c hc
      rcases List.mem_cons.mp hc with h | h
      · subst h; exact isLu_not_delim _ hu
      · exact isLu_not_delim _ (List.mem_takeWhile_imp h)
    · cases h
  | case4 d ds hp hu d1 ds1 h3 hd1 h5 ih =>
    rw [aux_upper_single d ds d1 ds1 (by simpa using hp) hu h3 hd1 h5]
    intro p hmem
    rcases List.mem_cons.mp hmem with h | h
    · subst h
      refine ⟨by simp, ?_⟩
      intro c hc
      rcases List.mem_cons.mp hc with h | h
      · subst h; exact isLu_not_delim _ hu
      · rcases List.mem_cons.mp h with h | h
        · subst h; exact isPlain_not_delim _ hd1
        · exact isPlain_not_delim _ (List.mem_takeWhile_imp h)
    · exact ih p h
  | case5 d ds hp hu d1 ds1 h3 hd1 d2 ds2 h5 front lst hsl ih =>
    rw [aux_upper_acro d ds d1 ds1 d2 ds2 (by simpa using hp) hu h3 hd1 h5]
    have hlus : ∀ c ∈ d2 :: ds2, isLu c = true := by
      intro c hc
      apply List.mem_takeWhile_imp (p := isLu) (l := ds)
      rw [h5]; exact hc
    have hfl : front ++ [lst] = d2 :: ds2 := by
      have := splitLast_append d2 ds2
      rw [hsl] at this; exact this
    rw [hsl]
    intro p hmem
    rcases List.mem_cons.mp hmem with h | h
    · subst h
      refine ⟨by simp, ?_⟩
      intro c hc
      rcases List.mem_cons.mp hc with h | h
      · subst h; exact isLu_not_delim _ hu
      · apply isLu_not_delim
        apply hlus
        rw [← hfl]
        exact List.mem_append_left _ h
    · rcases List.mem_cons.mp h with h | h
      · subst h
        refine ⟨by simp, ?_⟩
        intro c hc
        rcases List.mem_cons.mp hc with h | h
        · subst h
          apply isLu_not_delim
          apply hlus
          rw [← hfl]
          exact List.mem_append_right _ (by simp)
        · rcases List.mem_cons.mp h with h | h
          · subst h; exact isPlain_not_delim _ hd1
          · exact isPlain_not_delim _ (List.mem_takeWhile_imp h)
      · exact ih p h
  | case6 d ds hp hu d1 ds1 h3 hd1 ih =>
    rw [aux_upper_delim d ds d1 ds1 (by simpa using hp) hu h3 (by simpa using hd1)]
    intro p hmem
    rcases List.mem_cons.mp hmem with h | h
    · subst h
      refine ⟨by simp, ?_⟩
      intro c hc
      rcases List.mem_cons.mp hc with h | h
      · subst h; exact isLu_not_delim _ hu
      · exact isLu_not_delim _ (List.mem_takeWhile_imp h)
    · exact ih p h
  | case7 d ds hp hu ih =>
    rw [aux_delim d ds (by simpa using hp) (by simpa using hu)]
    exact ih

/-- A character that is neither plain nor uppercase is a delimiter: the
three classes partition `Char`. -/
theorem not_plain_not_lu_delim (c : Char) (hp : isPlain c = false) (hu : isLu c = false) :
    isDelim c = true := by
  by_contra hc
  rcases classify c (by simpa using hc) with h | h
  · rw [h] at hp; cases hp
  · rw [h] at hu; cases hu

theorem filter_takeWhile_plain (ds : List Char) :
    (ds.takeWhile isPlain).filter (fun c => !isDelim c) = ds.takeWhile isPlain :=
  List.filter_eq_self.mpr fun a ha => by
    simp [isPlain_not_delim a (List.mem_takeWhile_imp ha)]

theorem filter_takeWhile_lu (ds : List Char) :
    (ds.takeWhile isLu).filter (fun c => !isDelim c) = ds.takeWhile isLu :=
  List.filter_eq_self.mpr fun a ha => by
    simp [isLu_not_delim a (List.mem_takeWhile_imp ha)]

theorem pieces_cover (l : List Char) :
    (splitPiecesAux l).flatten = l.filter (fun c => !isDelim c) := by
  induction l using splitPiecesAux.induct with
  | case1 => simp [aux_nil]
  | case2 d ds hp ih =>
    rw [aux_plain d ds hp]
    conv_rhs => rw [← List.takeWhile_append_dropWhile (p := isPlain) (l := ds)]
    rw [List.filter_cons_of_pos (by simp [isPlain_not_delim d hp]), List.filter_append,
      filter_takeWhile_plain]
    simp only [List.flatten_cons, List.cons_append]
    rw [ih]
  | case3 d ds hp hu h3 =>
    rw [aux_upper_end d ds (by simpa using hp) hu h3]
    have hds : ds.takeWhile isLu = ds :=
      List.takeWhile_eq_self_iff.mpr (List.dropWhile_eq_nil_iff.mp h3)
    rw [List.filter_cons_of_pos (by simp [isLu_not_delim d hu]), hds]
    have : ds.filter (fun c => !isDelim c) = ds := by
      rw [← hds]
      exact filter_takeWhile_lu ds
    rw [this]
    simp
  | case4 d ds hp hu d1 ds1 h3 hd1 h5 ih =>
    rw [aux_upper_single d ds d1 ds1 (by simpa using hp) hu h3 hd1 h5]
    have hds : ds = d1 :: ds1 := by
      conv_lhs => rw [← List.takeWhile_append_dropWhile (p := isLu) (l := ds)]
      rw [h5, h3, List.nil_append]
    subst hds
    rw [List.filter_cons_of_pos (by simp [isLu_not_delim d hu]),
      List.filter_cons_of_pos (by simp [isPlain_not_delim d1 hd1])]
    conv_rhs => rw [← List.takeWhile_append_dropWhile (p := isPlain) (l := ds1)]
    rw [List.filter_append, filter_takeWhile_plain]
    simp only [List.flatten_cons, List.cons_append]
    rw [ih]
  | case5 d ds hp hu d1 ds1 h3 hd1 d2 ds2 h5 front lst hsl ih =>
    rw [aux_upper_acro d ds d1 ds1 d2 ds2 (by simpa using hp) hu h3 hd1 h5, hsl]
    have hfl : front ++ [lst] = d2 :: ds2 := by
      have := splitLast_append d2 ds2
      rw [hsl] at this; exact this
    have hds : ds = (d2 :: ds2) ++ d1 :: ds1 := by
      conv_lhs => rw [← List.takeWhile_append_dropWhile (p := isLu) (l := ds)]
      rw [h5, h3]
    have hlus : (d2 :: ds2).filter (fun c => !isDelim c) = d2 :: ds2 := by
      rw [← h5]
      exact filter_takeWhile_lu ds
    rw [List.filter_cons_of_pos (by simp [isLu_not_delim d hu]), hds,
      List.filter_append, hlus,
      List.filter_cons_of_pos (by simp [isPlain_not_delim d1 hd1])]
    conv_rhs => rw [← List.takeWhile_append_dropWhile (p := isPlain) (l := ds1)]
    rw [List.filter_append, filter_takeWhile_plain]
    simp only [List.flatten_cons, List.cons_append]
    have key : ∀ X : List Char, front ++ lst :: X = d2 :: (ds2 ++ X) := by
      intro X
      calc front ++ lst :: X = (front ++ [lst]) ++ X := by simp
        _ = (d2 :: ds2) ++ X := by rw [hfl]
        _ = d2 :: (ds2 ++ X) := by simp
    rw [ih, key]
  | case6 d ds hp hu d1 ds1 h3 hd1 ih =>
    rw [aux_upper_delim d ds d1 ds1 (by simpa using hp) hu h3 (by simpa using hd1)]
    have hds : ds = ds.takeWhile isLu ++ d1 :: ds1 := by
      conv_lhs => rw [← List.takeWhile_append_dropWhile (p := isLu) (l := ds)]
      rw [h3]
    rw [List.filter_cons_of_pos (by simp [isLu_not_delim d hu])]
    conv_rhs => rw [hds]
    rw [List.filter_append, filter_takeWhile_lu]
    simp only [List.flatten_cons, List.cons_append]
    rw [ih]
  | case7 d ds hp hu ih =>
    rw [aux_delim d ds (by simpa using hp) (by simpa using hu)]
    rw [List.filter_cons_of_neg
      (by simp [not_plain_not_lu_delim d (by simpa using hp) (by simpa using hu)])]
    exact ih

/-! ### Helper lemmas about `runsBy` and delimiter-only input -/

theorem runsBy_nil (d : Char → Bool) : runsBy d [] = [] := by
  rw [runsBy.eq_def]

theorem runsBy_delim (d : Char → Bool) (c : Char) (cs : List Char) (h : d c = true) :
    runsBy d (c :: cs) = runsBy d cs := by
  rw [runsBy.eq_def]
  simp [h]

theorem runsBy_run (d : Char → Bool) (c : Char) (cs : List Char) (h : d c = false) :
    runsBy d (c :: cs)
      = (c :: cs.takeWhile (fun x => !d x)) :: runsBy d (cs.dropWhile (fun x => !d x)) := by
  rw [runsBy.eq_def]
  simp [h]

theorem takeWhile_congr_mem {p q : Char → Bool} (l : List Char)
    (h : ∀ x ∈ l, p x = q x) : l.takeWhile p = l.takeWhile q := by
  induction l with
  | nil => rfl
  | cons c cs ih =>
    simp only [List.takeWhile_cons, h c (by simp)]
    cases q c
    · rfl
    · rw [ih fun x hx => h x (by simp [hx])]

theorem dropWhile_congr_mem {p q : Char → Bool} (l : List Char)
    (h : ∀ x ∈ l, p x = q x) : l.dropWhile p = l.dropWhile q := by
  induction l with
  | nil => rfl
  | cons c cs ih =>
    simp only [List.dropWhile_cons, h c (by simp)]
    cases q c
    · rfl
    · exact ih fun x hx => h x (by simp [hx])

/-- With no uppercase letters in sight, plain = non-delimiter. -/
theorem isPlain_eq_not_delim (c : Char) (h : isLu c = false) :
    isPlain c = !isDelim c := by
  simp [isPlain, h]

/-- On uppercase-free input the scanner is pure delimiter splitting for
the code's delimiter set. -/
theorem aux_eq_runsBy (l : List Char) (h : ∀ c ∈ l, isLu c = false) :
    splitPiecesAux l = runsBy isDelim l := by
  induction l using splitPiecesAux.induct with
  | case1 => rw [aux_nil, runsBy_nil]
  | case2 c cs hp ih =>
    have hcs : ∀ x ∈ cs, isPlain x = (!isDelim x) := fun x hx =>
      isPlain_eq_not_delim x (h x (by simp [hx]))
    rw [aux_plain c cs hp,
      ih fun x hx => h x (List.mem_cons_of_mem _ ((List.dropWhile_suffix _).subset hx)),
      runsBy_run isDelim c cs (isPlain_not_delim c hp),
      takeWhile_congr_mem cs hcs, dropWhile_congr_mem cs hcs]
  | case3 c cs hp hu h3 =>
    exact absurd (h c (by simp)) (by simp [hu])
  | case4 c cs hp hu d1 ds1 h3 hd1 h5 ih =>
    exact absurd (h c (by simp)) (by simp [hu])
  | case5 c cs hp hu d1 ds1 h3 hd1 d2 ds2 h5 front lst hsl ih =>
    exact absurd (h c (by simp)) (by simp [hu])
  | case6 c cs hp hu d1 ds1 h3 hd1 ih =>
    exact absurd (h c (by simp)) (by simp [hu])
  | case7 c cs hp hu ih =>
    have hd : isDelim c = true :=
      not_plain_not_lu_delim c (by simpa using hp) (by simpa using hu)
    rw [aux_delim c cs (by simpa using hp) (by simpa using hu), runsBy_delim isDelim c cs hd]
    exact ih fun x hx => h x (by simp [hx])

theorem aux_all_delim (l : List Char) (h : ∀ c ∈ l, isDelim c = true) :
    splitPiecesAux l = [] := by
  induction l with
  | nil => exact aux_nil
  | cons c cs ih =>
    have hd := h c (by simp)
    have hp : isPlain c = false := by simp [isPlain, hd]
    have hu : isLu c = false := by
      by_contra hcon
      rw [isLu_not_delim c (by simpa using hcon)] at hd
      cases hd
    rw [aux_delim c cs hp hu]
    exact ih fun x hx => h x (by simp [hx])

/-! ### Claim-facing helper lemmas -/

theorem claimDelim_iff (c : Char) :
    (c = ' ' || c = '-' || c = '_') = true ↔
      (c.toNat = 32 ∨ c.toNat = 45 ∨ c.toNat = 95) := by
  simp [char_eq_iff]
  tauto

/-- Among letters, digits and the three claimed delimiters, the code's
delimiter test agrees with the claimed delimiter set. -/
theorem delim_eq_claim_of_alnum (c : Char)
    (h : c.isAlpha = true ∨ c.isDigit = true ∨ c = ' ' ∨ c = '-' ∨ c = '_') :
    isDelim c = (c = ' ' || c = '-' || c = '_') := by
  have key : (65 ≤ c.toNat ∧ c.toNat ≤ 90) ∨ (97 ≤ c.toNat ∧ c.toNat ≤ 122) ∨
      (48 ≤ c.toNat ∧ c.toNat ≤ 57) ∨ c.toNat = 32 ∨ c.toNat = 45 ∨ c.toNat = 95 := by
    rcases h with h | h | h | h | h
    · rcases (Bool.or_eq_true _ _).mp (by simpa [Char.isAlpha] using h) with h | h
      · exact Or.inl ((isUpper_iff c).mp h)
      · exact Or.inr (Or.inl ((isLower_iff c).mp h))
    · exact Or.inr (Or.inr (Or.inl ((isDigit_iff c).mp h)))
    · subst h; exact Or.inr (Or.inr (Or.inr (Or.inl rfl)))
    · subst h; exact Or.inr (Or.inr (Or.inr (Or.inr (Or.inl rfl))))
    · subst h; exact Or.inr (Or.inr (Or.inr (Or.inr (Or.inr rfl))))
  rw [Bool.eq_iff_iff, isDelim_iff, claimDelim_iff]
  omega

/-! ### The claims -/

/-- C1: the acronym tie-break of `splitPieces`: `"parseURLFunction"`
segments as `["parse", "URL", "Function"]` — the uppercase run stops
before an uppercase letter that is followed by a lowercase continuation,
which starts a new capitalized-run piece — while `"parseURL"` keeps the
trailing acronym whole, segmenting as `["parse", "URL"]`. -/
theorem claim_C1 :
    splitPieces "parseURLFunction" = ["parse", "URL", "Function"] ∧
    splitPieces "parseURL" = ["parse", "URL"] := by
  constructor <;> (rw [splitPieces_eq_splitPiecesC]; decide)

/-- C2: every piece returned by `splitPieces` is non-empty and contains
none of space, dash, underscore (so consecutive delimiters never produce
an empty piece); and on input made of letters, digits and those
delimiters only, the concatenation of the pieces equals the input with
the delimiter characters removed, in original order. -/
theorem claim_C2 (s : String) :
    (∀ p ∈ splitPieces s, p ≠ "" ∧ ∀ c ∈ p.data, c ≠ ' ' ∧ c ≠ '-' ∧ c ≠ '_') ∧
    ((∀ c ∈ s.data, c.isAlpha = true ∨ c.isDigit = true ∨ c = ' ' ∨ c = '-' ∨ c = '_') →
      ((splitPieces s).map String.data).flatten
        = s.data.filter (fun c => !(c = ' ' || c = '-' || c = '_'))) := by
  constructor
  · intro p hp
    rw [splitPieces] at hp
    rcases List.mem_map.mp hp with ⟨q, hq, rfl⟩
    have hwf := pieces_wf s.data q hq
    constructor
    · intro hcon
      exact hwf.1 (by simpa using congrArg String.data hcon)
    · intro c hc
      have hcd : isDelim c = false := hwf.2 c (by simpa using hc)
      refine ⟨?_, ?_, ?_⟩ <;>
        · intro hceq
          subst hceq
          exact absurd hcd (by decide)
  · intro hall
    have hmap : ((splitPieces s).map String.data) = splitPiecesAux s.data := by
      rw [splitPieces, List.map_map]
      have hid : (String.data ∘ fun p => (⟨p⟩ : String)) = id := rfl
      rw [hid, List.map_id]
    rw [hmap, pieces_cover]
    apply List.filter_congr
    intro c hc
    rw [delim_eq_claim_of_alnum c (hall c hc)]

theorem claim_C2_witness :
    (∀ p ∈ splitPieces "a-b c_d9", p ≠ "" ∧ ∀ c ∈ p.data, c ≠ ' ' ∧ c ≠ '-' ∧ c ≠ '_') ∧
    ((splitPieces "a-b c_d9").map String.data).flatten
      = "a-b c_d9".data.filter (fun c => !(c = ' ' || c = '-' || c = '_')) :=
  ⟨(claim_C2 "a-b c_d9").1, (claim_C2 "a-b c_d9").2 (by decide)⟩

/-- C6 (amended): the delimiter set of `splitPieces` is JavaScript
whitespace (the regex class `\s`) together with dash and underscore: on
every input without uppercase letters, `splitPieces` returns precisely
the maximal runs of non-delimiter characters for that set.  (The claim's
set — exactly space, dash, underscore — is refuted by `claim_C6_cex`:
tab is a delimiter too.) -/
theorem claim_C6 (s : String) (h : ∀ c ∈ s.data, isLu c = false) :
    (splitPieces s).map String.data = runsBy isDelim s.data := by
  rw [splitPieces, List.map_map]
  have hid : (String.data ∘ fun p => (⟨p⟩ : String)) = id := rfl
  rw [hid, List.map_id]
  exact aux_eq_runsBy s.data h

theorem claim_C6_witness :
    (∀ c ∈ "a\tb".data, isLu c = false) ∧
    (splitPieces "a\tb").map String.data = runsBy isDelim "a\tb".data :=
  ⟨by decide, claim_C6 "a\tb" (by decide)⟩

/-- C6 counterexample: `"a\tb"` has no uppercase letters, yet its pieces
are not the maximal runs of non-`{space, dash, underscore}` characters:
the code also treats the tab as a delimiter and returns `["a", "b"]`, not
`["a\tb"]`. -/
theorem claim_C6_cex :
    (∀ c ∈ "a\tb".data, isLu c = false) ∧
    ¬ ((splitPieces "a\tb").map String.data = runsBy isClaimDelim "a\tb".data) := by
  constructor
  · decide
  · rw [splitPieces_eq_splitPiecesC,
      runsBy_run isClaimDelim 'a' ['\t', 'b'] (by decide),
      (by decide : List.dropWhile (fun x => !isClaimDelim x) ['\t', 'b'] = []),
      runsBy_nil]
    decide

/-- C7: `splitPieces` (a total function of the input string) returns the
empty sequence on the empty string and on every string made only of
delimiter characters, and each of the six formatters maps the empty
string to the empty string. -/
theorem claim_C7 :
    splitPieces "" = [] ∧
    (∀ s : String, (∀ c ∈ s.data, isDelim c = true) → splitPieces s = []) ∧
    camelCase "" = some "" ∧ snakeCase "" = "" ∧ kebabCase "" = "" ∧
    titleCase "" = some "" ∧ pascalCase "" = some "" ∧ constantCase "" = "" := by
  have h0 : splitPieces "" = [] := by
    rw [splitPieces_eq_splitPiecesC]
    decide
  refine ⟨h0, ?_, ?_, ?_, ?_, ?_, ?_, ?_⟩
  · intro s hs
    rw [splitPieces, aux_all_delim s.data hs]
    rfl
  · rw [camelCase, h0]; decide
  · rw [snakeCase, h0]; decide
  · rw [kebabCase, h0]; decide
  · rw [titleCase, h0]; decide
  · rw [pascalCase, h0]; decide
  · rw [constantCase, h0]; decide

theorem claim_C7_witness : splitPieces " -_-" = [] :=
  claim_C7.2.1 " -_-" (by decide)

/-! ### Formatter lemmas -/

theorem joinSep_nil_eq_flatten (ps : List (List Char)) : joinSep [] ps = ps.flatten := by
  match ps with
  | [] => rfl
  | [p] => simp [joinSep]
  | p :: q :: rest =>
    rw [joinSep, joinSep_nil_eq_flatten (q :: rest)]
    simp

theorem capitalize_eq_capSpec (s : List Char) (h : s ≠ []) :
    capitalize s = some (capSpec s) := by
  match s with
  | [] => exact absurd rfl h
  | c :: cs => rfl

theorem camelPiece_tail_eq (i : Nat) (s : List Char) (h : s ≠ []) :
    camelPiece (i + 1) s = some (caseSpec s) := by
  rw [camelPiece, if_neg (Nat.succ_ne_zero i), caseSpec]
  split
  · rfl
  · exact capitalize_eq_capSpec s h

theorem capPiece_eq (s : List Char) (h : s ≠ []) :
    capPiece s = some (caseSpec s) := by
  rw [capPiece, caseSpec]
  split
  · rfl
  · exact capitalize_eq_capSpec s h

theorem mapIdx_camel_tail (rest : List (List Char)) (i : Nat)
    (h : ∀ s ∈ rest, s ≠ []) :
    mapIdxPieces camelPiece (i + 1) rest = some (rest.map caseSpec) := by
  induction rest generalizing i with
  | nil => rfl
  | cons t ts ih =>
    rw [mapIdxPieces, camelPiece_tail_eq i t (h t (by simp)),
      ih (i + 1) fun s hs => h s (by simp [hs])]
    rfl

theorem mapPieces_cap (ps : List (List Char)) (h : ∀ s ∈ ps, s ≠ []) :
    mapPieces capPiece ps = some (ps.map caseSpec) := by
  induction ps with
  | nil => rfl
  | cons t ts ih =>
    rw [mapPieces, capPiece_eq t (h t (by simp)),
      ih fun s hs => h s (by simp [hs])]
    rfl

theorem camelCaseP_eq (ps : List (List Char)) (h : ∀ s ∈ ps, s ≠ []) :
    camelCaseP ps = some (camelSpec ps) := by
  match ps with
  | [] => rfl
  | s :: rest =>
    rw [camelCaseP, mapIdxPieces]
    have h0 : camelPiece 0 s = some (lowerStr s) := rfl
    rw [h0, mapIdx_camel_tail rest 0 fun t ht => h t (by simp [ht])]
    show some (joinSep [] (lowerStr s :: rest.map caseSpec)) = _
    rw [joinSep_nil_eq_flatten, camelSpec]
    simp

theorem titleCaseP_eq (ps : List (List Char)) (h : ∀ s ∈ ps, s ≠ []) :
    titleCaseP ps = some (titleSpec ps) := by
  rw [titleCaseP, mapPieces_cap ps h, titleSpec]
  rfl

theorem pascalCaseP_eq (ps : List (List Char)) (h : ∀ s ∈ ps, s ≠ []) :
    pascalCaseP ps = some (pascalSpec ps) := by
  rw [pascalCaseP, mapPieces_cap ps h, pascalSpec]
  show some (joinSep [] (ps.map caseSpec)) = _
  rw [joinSep_nil_eq_flatten]

theorem camelPiece_isSome (i : Nat) (s : List Char) : (camelPiece i s).isSome = true := by
  rw [camelPiece]
  split
  · rfl
  · split
    · rfl
    · rename_i h1 h2
      match s with
      | [] => exact absurd rfl h2
      | c :: cs => rfl

theorem capPiece_isSome (s : List Char) : (capPiece s).isSome = true := by
  rw [capPiece]
  split
  · rfl
  · rename_i h2
    match s with
    | [] => exact absurd rfl h2
    | c :: cs => rfl

theorem mapIdxPieces_isSome (f : Nat → List Char → Option (List Char))
    (hf : ∀ i s, (f i s).isSome = true) (i : Nat) (ps : List (List Char)) :
    (mapIdxPieces f i ps).isSome = true := by
  induction ps generalizing i with
  | nil => rfl
  | cons t ts ih =>
    rw [mapIdxPieces]
    rcases Option.isSome_iff_exists.mp (hf i t) with ⟨v, hv⟩
    rcases Option.isSome_iff_exists.mp (ih (i + 1)) with ⟨vs, hvs⟩
    rw [hv, hvs]
    rfl

theorem mapPieces_isSome (f : List Char → Option (List Char))
    (hf : ∀ s, (f s).isSome = true) (ps : List (List Char)) :
    (mapPieces f ps).isSome = true := by
  induction ps with
  | nil => rfl
  | cons t ts ih =>
    rw [mapPieces]
    rcases Option.isSome_iff_exists.mp (hf t) with ⟨v, hv⟩
    rcases Option.isSome_iff_exists.mp ih with ⟨vs, hvs⟩
    rw [hv, hvs]
    rfl

-- case-mapping composition on strings
theorem upperStr_lowerStr (s : List Char) : upperStr (lowerStr s) = upperStr s := by
  induction s with
  | nil => rfl
  | cons c cs ih =>
    show Char.toUpper (Char.toLower c) :: upperStr (lowerStr cs) = Char.toUpper c :: upperStr cs
    rw [toUpper_toLower, ih]

theorem upperStr_caseSpec (t : List Char) : upperStr (caseSpec t) = upperStr t := by
  by_cases h : upperStr t = t
  · rw [caseSpec, if_pos h]
  · rw [caseSpec, if_neg h]
    match t with
    | [] => exact absurd rfl h
    | c :: cs =>
      show Char.toUpper (Char.toUpper c) :: upperStr (lowerStr cs) = _
      rw [toUpper_toUpper, upperStr_lowerStr]
      rfl

theorem upperStr_append (a b : List Char) : upperStr (a ++ b) = upperStr a ++ upperStr b :=
  List.map_append _ a b

theorem upperStr_camelSpec (ps : List (List Char)) :
    upperStr (camelSpec ps) = (ps.map upperStr).flatten := by
  match ps with
  | [] => rfl
  | s :: rest =>
    rw [camelSpec, upperStr_append, upperStr_lowerStr]
    have hrest : upperStr (rest.map caseSpec).flatten = (rest.map upperStr).flatten := by
      induction rest with
      | nil => rfl
      | cons t ts ih =>
        simp only [List.map_cons, List.flatten_cons, upperStr_append, ih, upperStr_caseSpec]
    rw [hrest]
    simp

theorem no_underscore_upperStr (s : List Char) (h : ∀ c ∈ s, c ≠ '_') :
    ∀ c ∈ upperStr s, c ≠ '_' := by
  intro c hc
  rcases List.mem_map.mp hc with ⟨d, hd, rfl⟩
  intro hcon
  have h95 : d.toNat ≠ 95 := by
    intro hd95
    exact h d hd (char_eq_iff.mpr hd95)
  exact toUpper_underscore d h95 (by rw [hcon]; rfl)

theorem filter_joinSep_underscore (qs : List (List Char))
    (h : ∀ q ∈ qs, ∀ c ∈ q, c ≠ '_') :
    (joinSep ['_'] qs).filter (fun c => c ≠ '_') = qs.flatten := by
  match qs with
  | [] => rfl
  | [q] =>
    rw [joinSep]
    have : q.filter (fun c => c ≠ '_') = q :=
      List.filter_eq_self.mpr fun a ha => by simp [h q (by simp) a ha]
    rw [this]
    simp
  | q :: r :: rest =>
    rw [joinSep]
    have hq : q.filter (fun c => c ≠ '_') = q :=
      List.filter_eq_self.mpr fun a ha => by simp [h q (by simp) a ha]
    rw [List.filter_append, List.filter_append, hq,
      filter_joinSep_underscore (r :: rest) fun x hx => h x (by simp [hx])]
    simp

-- lowercase pieces
theorem lowerStr_eq_self (s : List Char) (h : ∀ c ∈ s, c.isLower = true) :
    lowerStr s = s := by
  induction s with
  | nil => rfl
  | cons c cs ih =>
    show Char.toLower c :: lowerStr cs = c :: cs
    rw [isLower_toLower c (h c (by simp)), ih fun x hx => h x (by simp [hx])]

theorem upperStr_eq_self_of_digits (t : List Char) (h : ∀ c ∈ t, c.isDigit = true) :
    upperStr t = t := by
  induction t with
  | nil => rfl
  | cons c cs ih =>
    show Char.toUpper c :: upperStr cs = c :: cs
    rw [isDigit_toUpper c (h c (by simp)), ih fun x hx => h x (by simp [hx])]

theorem takeWhile_append_of_all {p : Char → Bool} (s t : List Char) (b : Char)
    (hs : ∀ c ∈ s, p c = true) (hb : p b = false) :
    (s ++ b :: t).takeWhile p = s ∧ (s ++ b :: t).dropWhile p = b :: t := by
  induction s with
  | nil => simp [List.takeWhile_cons, List.dropWhile_cons, hb]
  | cons c cs ih =>
    have hc := hs c (by simp)
    have ih2 := ih fun x hx => hs x (by simp [hx])
    simp only [List.cons_append, List.takeWhile_cons, List.dropWhile_cons, hc, ih2.1, ih2.2]
    simp

theorem aux_joinSep_dash (ps : List (List Char))
    (h : ∀ s ∈ ps, s ≠ [] ∧ ∀ c ∈ s, isPlain c = true) :
    splitPiecesAux (joinSep ['-'] ps) = ps := by
  induction ps with
  | nil => exact aux_nil
  | cons s rest ih =>
    rcases h s (by simp) with ⟨hne, hall⟩
    match s, hne with
    | c :: cs, _ =>
      have hc : isPlain c = true := hall c (by simp)
      have hcs : ∀ x ∈ cs, isPlain x = true := fun x hx => hall x (by simp [hx])
      cases rest with
      | nil =>
        rw [joinSep, aux_plain c cs hc,
          List.takeWhile_eq_self_iff.mpr hcs,
          List.dropWhile_eq_nil_iff.mpr hcs, aux_nil]
      | cons q rest2 =>
        rw [joinSep]
        have hJ : ((c :: cs) ++ ['-'] ++ joinSep ['-'] (q :: rest2))
            = c :: (cs ++ '-' :: joinSep ['-'] (q :: rest2)) := by simp
        rw [hJ]
        have hb : isPlain '-' = false := by decide
        have hsp := takeWhile_append_of_all cs (joinSep ['-'] (q :: rest2)) '-' hcs hb
        rw [aux_plain c _ hc, hsp.1, hsp.2, aux_delim '-' _ hb (by decide),
          ih fun x hx => h x (by simp [hx])]

theorem map_lowerStr_eq_self (ls : List (List Char))
    (h : ∀ s ∈ ls, ∀ c ∈ s, c.isLower = true) : ls.map lowerStr = ls := by
  induction ls with
  | nil => rfl
  | cons s ss ih =>
    rw [List.map_cons, lowerStr_eq_self s (h s (by simp)),
      ih fun x hx => h x (by simp [hx])]

/-- C3: each of the six formatters applied to a raw string equals the
formatter applied to `splitPieces` of that string (the overload dispatch
is exactly segment-then-format); and a caller-supplied piece sequence is
used verbatim — `snakeCase` lowers the given pieces and joins them with
`"_"`, with no re-splitting and no delimiter stripping, even when a piece
itself contains spaces or dashes. -/
theorem claim_C3 (s : String) (ps : List String) :
    (camelCase s = camelCasePieces (splitPieces s) ∧
     snakeCase s = snakeCasePieces (splitPieces s) ∧
     kebabCase s = kebabCasePieces (splitPieces s) ∧
     titleCase s = titleCasePieces (splitPieces s) ∧
     pascalCase s = pascalCasePieces (splitPieces s) ∧
     constantCase s = constantCasePieces (splitPieces s)) ∧
    snakeCasePieces ps = ⟨joinSep ['_'] (ps.map fun p => lowerStr p.data)⟩ ∧
    snakeCasePieces ["he llo", "wo-rld"] = "he llo_wo-rld" := by
  refine ⟨⟨rfl, rfl, rfl, rfl, rfl, rfl⟩, ?_, by decide⟩
  rw [snakeCasePieces, snakeCaseP, List.map_map]
  rfl

/-- C4: camelCase on a sequence of non-empty pieces renders the first
piece fully lowercased (even an all-uppercase one), each later piece
unchanged when it equals its own uppercase form and otherwise as its
first character uppercased plus the remainder lowercased, concatenated
with the empty joiner — the rendering `camelSpec` spells out. -/
theorem claim_C4 (ps : List String) (h : ∀ p ∈ ps, p ≠ "") :
    camelCasePieces ps = some ⟨camelSpec (ps.map String.data)⟩ := by
  have h2 : ∀ s ∈ ps.map String.data, s ≠ [] := by
    intro s hs
    rcases List.mem_map.mp hs with ⟨p, hp, rfl⟩
    exact fun hcon => h p hp (String.ext hcon)
  rw [camelCasePieces, camelCaseP_eq (ps.map String.data) h2]
  rfl

theorem claim_C4_witness :
    camelCasePieces ["URL", "path"] = some ⟨camelSpec (["URL", "path"].map String.data)⟩ ∧
    camelCasePieces ["URL", "path"] = some "urlPath" :=
  ⟨claim_C4 ["URL", "path"] (by decide), by decide⟩

/-- C5: titleCase on non-empty pieces renders each piece unchanged when
it equals its own uppercase form and otherwise capitalizes it, joined
with single spaces; pascalCase applies the identical per-piece rule with
the empty joiner; neither force-lowers the first piece (`titleSpec` and
`pascalSpec` treat all pieces alike); and a piece of digits passes the
all-uppercase test, so it passes through unchanged. -/
theorem claim_C5 (ps : List String) (h : ∀ p ∈ ps, p ≠ "") :
    titleCasePieces ps = some ⟨titleSpec (ps.map String.data)⟩ ∧
    pascalCasePieces ps = some ⟨pascalSpec (ps.map String.data)⟩ ∧
    (∀ t : List Char, (∀ c ∈ t, c.isDigit = true) → capPiece t = some t) := by
  have h2 : ∀ s ∈ ps.map String.data, s ≠ [] := by
    intro s hs
    rcases List.mem_map.mp hs with ⟨p, hp, rfl⟩
    exact fun hcon => h p hp (String.ext hcon)
  refine ⟨?_, ?_, ?_⟩
  · rw [titleCasePieces, titleCaseP_eq _ h2]
    rfl
  · rw [pascalCasePieces, pascalCaseP_eq _ h2]
    rfl
  · intro t ht
    rw [capPiece, if_pos (upperStr_eq_self_of_digits t ht)]

theorem claim_C5_witness :
    (titleCasePieces ["parse", "URL", "42"]
        = some ⟨titleSpec (["parse", "URL", "42"].map String.data)⟩ ∧
      pascalCasePieces ["parse", "URL", "42"]
        = some ⟨pascalSpec (["parse", "URL", "42"].map String.data)⟩) ∧
    titleCasePieces ["parse", "URL", "42"] = some "Parse URL 42" ∧
    pascalCasePieces ["parse", "URL", "42"] = some "ParseURL42" :=
  ⟨⟨(claim_C5 ["parse", "URL", "42"] (by decide)).1,
    (claim_C5 ["parse", "URL", "42"] (by decide)).2.1⟩, by decide, by decide⟩

/-- C8: kebab round-trip — for every sequence of non-empty, all-lowercase
pieces, segmenting the kebabCase rendering returns exactly the original
pieces. -/
theorem claim_C8 (ps : List String)
    (h : ∀ p ∈ ps, p ≠ "" ∧ ∀ c ∈ p.data, c.isLower = true) :
    splitPieces (kebabCasePieces ps) = ps := by
  have hdata : ∀ s ∈ ps.map String.data, s ≠ [] ∧ ∀ c ∈ s, c.isLower = true := by
    intro s hs
    rcases List.mem_map.mp hs with ⟨p, hp, rfl⟩
    exact ⟨fun hcon => (h p hp).1 (String.ext hcon), (h p hp).2⟩
  have hmap : (ps.map String.data).map lowerStr = ps.map String.data :=
    map_lowerStr_eq_self _ fun s hs => (hdata s hs).2
  rw [kebabCasePieces, splitPieces]
  show ((splitPiecesAux (kebabCaseP (ps.map String.data))).map fun p => (⟨p⟩ : String)) = ps
  rw [kebabCaseP, hmap,
    aux_joinSep_dash (ps.map String.data) fun s hs =>
      ⟨(hdata s hs).1, fun c hc => isLower_isPlain c ((hdata s hs).2 c hc)⟩,
    List.map_map]
  have hid : ((fun p => (⟨p⟩ : String)) ∘ String.data) = id := rfl
  rw [hid, List.map_id]

theorem claim_C8_witness :
    splitPieces (kebabCasePieces ["abc", "de"]) = ["abc", "de"] ∧
    kebabCasePieces ["abc", "de"] = "abc-de" :=
  ⟨claim_C8 ["abc", "de"] (by decide), by decide⟩

/-- C9 (amended): for every sequence of non-empty pieces containing no
underscore characters, the uppercased camelCase result equals the
constantCase result with all underscores removed.  (As stated over all
non-empty piece sequences the claim fails: a piece that itself contains
an underscore keeps it under camelCase but loses it when constantCase is
stripped of underscores — see `claim_C9_cex`.) -/
theorem claim_C9 (ps : List (List Char))
    (h : ∀ s ∈ ps, s ≠ [] ∧ ∀ c ∈ s, c ≠ '_') :
    (camelCaseP ps).map upperStr
      = some ((constantCaseP ps).filter (fun c => c ≠ '_')) := by
  rw [camelCaseP_eq ps fun s hs => (h s hs).1]
  show some (upperStr (camelSpec ps)) = _
  rw [upperStr_camelSpec, constantCaseP]
  exact congrArg some (filter_joinSep_underscore (ps.map upperStr) (by
    intro q hq
    rcases List.mem_map.mp hq with ⟨s, hs, rfl⟩
    exact no_underscore_upperStr s (h s hs).2)).symm

theorem claim_C9_witness :
    (camelCaseP [['u', 'r', 'l'], ['P', 'a', 't', 'h']]).map upperStr
      = some ((constantCaseP [['u', 'r', 'l'], ['P', 'a', 't', 'h']]).filter
          (fun c => c ≠ '_')) :=
  claim_C9 [['u', 'r', 'l'], ['P', 'a', 't', 'h']] (by decide)

/-- C9 counterexample: the single piece `"a_b"` is non-empty and has no
uppercase letters at all (hence no uppercase-acronym ambiguity), yet
uppercased camelCase gives `"A_B"` while underscore-stripped constantCase
gives `"AB"`. -/
theorem claim_C9_cex :
    (∀ s ∈ [['a', '_', 'b']], s ≠ []) ∧
    ¬ ((camelCaseP [['a', '_', 'b']]).map upperStr
        = some ((constantCaseP [['a', '_', 'b']]).filter (fun c => c ≠ '_'))) :=
  ⟨by decide, by decide⟩

/-- C10: all formatters are total on every caller-supplied piece array,
including arrays containing the empty string: the all-uppercase test
(`s.toUpperCase() === s`) is checked before `s[0]` is accessed and the
empty string satisfies it, so an empty piece passes through unchanged and
the capitalization branch (`capitalize`, which is `none` on the empty
string) is never reached on an empty piece; camel, title and pascal
always return a value (snake, kebab and constant are total by
construction, returning plain strings). -/
theorem claim_C10 (ps : List String) :
    (camelCasePieces ps).isSome = true ∧ (titleCasePieces ps).isSome = true ∧
    (pascalCasePieces ps).isSome = true ∧
    (∀ i : Nat, camelPiece i [] = some []) ∧ capPiece [] = some [] ∧
    capitalize [] = none := by
  refine ⟨?_, ?_, ?_, ?_, rfl, rfl⟩
  · rw [camelCasePieces, Option.isSome_map', camelCaseP, Option.isSome_map']
    exact mapIdxPieces_isSome camelPiece camelPiece_isSome 0 _
  · rw [titleCasePieces, Option.isSome_map', titleCaseP, Option.isSome_map']
    exact mapPieces_isSome capPiece capPiece_isSome _
  · rw [pascalCasePieces, Option.isSome_map', pascalCaseP, Option.isSome_map']
    exact mapPieces_isSome capPiece capPiece_isSome _
  · intro i
    match i with
    | 0 => rfl
    | i + 1 => rfl

end Cases
